import Mathlib

/-!
Verification of the Harbor build-pipeline orchestrator.

This file shallowly embeds the parts of the Harbor source that the
specification's claims are about: the `Environment.define` option
resolution, `Harbor.validateResult` and the `Harbor.init` run
coordinator, the `BaseService` lifecycle helpers (environment gating,
`defineEntry`, hook-list construction), the completion-signal behaviour
of the `JsOptimizer` and `StyleguideHelper` units, and the legacy CLI
driver in `bin/Harbor.js`.

JavaScript values that matter to control flow (strings, numbers,
booleans, `undefined`) are embedded explicitly: `Option` models
possibly-`undefined` values and dedicated truthiness functions mirror
JavaScript's coercion rules at each branch of the source.

The TaskManager (the publish engine) is not part of the analysed
sources; the few facts about it that claims need (how `resolve(exit)`
buckets a unit into `completed`/`exceptions`, and that a comma-joined
hook string is split back into hook names) are modelled from the spec
and marked as such on their definitions.
-/

/-- A JavaScript value as far as the embedded code inspects one:
a string, an integral number, or a boolean. -/
inductive JVal where
  | str (s : String)
  | num (n : Int)
  | bool (b : Bool)
deriving DecidableEq, Repr

/-- JavaScript `String(v)` for the embedded value type. -/
def JVal.toJsString : JVal → String
  | .str s => s
  | .num n => toString n
  | .bool b => if b then "true" else "false"

/-- Digit-accumulation for the leading-digits part of `parseInt`. -/
def digitsValue (cs : List Char) : Option Nat :=
  let ds := cs.takeWhile Char.isDigit
  if ds.isEmpty then none
  else some (ds.foldl (fun a c => a * 10 + (c.toNat - 48)) 0)

/-- Whitespace-trimming on the character list of a string (JavaScript
strings are trimmed at both ends before `parseInt` scans them). -/
def jsTrimChars (cs : List Char) : List Char :=
  ((cs.dropWhile Char.isWhitespace).reverse.dropWhile Char.isWhitespace).reverse

/-- JavaScript `parseInt(s, 10)`: trim, optional sign, leading digits;
`none` models `NaN`. -/
def jsParseIntStr (s : String) : Option Int :=
  match jsTrimChars s.data with
  | '-' :: rest => (digitsValue rest).map (fun n => -(n : Int))
  | '+' :: rest => (digitsValue rest).map (fun n => (n : Int))
  | t => (digitsValue t).map (fun n => (n : Int))

/-- JavaScript `parseInt(v, 10)` on an arbitrary value (the value is
stringified first). -/
def jsParseInt (v : JVal) : Option Int :=
  jsParseIntStr v.toJsString

/-- Truthiness of the result of `parseInt`: `NaN` and `0` are falsy. -/
def parseIntTruthy (r : Option Int) : Bool :=
  match r with
  | none => false
  | some n => n != 0

/- ## Environment.define (src/Harbor/common/Environment.js, embedded in
the second half of src/Harbor/workers/StyleguideHelper.js) -/

/-- The `this.defaults` object of the `Environment` class, in source
order. -/
def environmentDefaults : List (String × JVal) :=
  [ ("THEME_PORT", .num 8080)
  , ("THEME_DEBUG", .bool false)
  , ("THEME_ENVIRONMENT", .str "production")
  , ("THEME_STATIC_DIRECTORY", .str "")
  , ("THEME_TEST_PHASE", .str "test")
  , ("THEME_WEBSOCKET_PORT", .num 35729)
  , ("THEME_AS_CLI", .bool false) ]

/-- JavaScript `s.toLowerCase()` (character-wise lowering). -/
def jsToLowerCase (s : String) : String :=
  ⟨s.data.map Char.toLower⟩

/-- The boolean-coercion step of `Environment.define`: a string value
equal (case-insensitively) to `'false'`/`'0'` becomes `false`, one equal
to `'true'`/`'1'` becomes `true`; any other value is left alone.  The
source runs the two `if (typeof parsed[o] === 'string' && [...].includes(...))`
statements in sequence; after the first fires the value is no longer a
string, so the sequence is equivalent to this two-way case split. -/
def coerceEnvBool (v : JVal) : JVal :=
  match v with
  | .str s =>
      if jsToLowerCase s = "false" ∨ jsToLowerCase s = "0" then .bool false
      else if jsToLowerCase s = "true" ∨ jsToLowerCase s = "1" then .bool true
      else .str s
  | v => v

/-- One iteration of the `Object.keys(this.defaults).forEach` loop of
`Environment.define`: inherit the default when the process environment
has no own property for the key (`parseInt(default, 10) ? parseInt(...) : default`),
then apply the boolean coercion. -/
def defineOption (envValue : Option String) (dflt : JVal) : JVal :=
  let v : JVal :=
    match envValue with
    | some s => .str s
    | none =>
        if parseIntTruthy (jsParseInt dflt) then
          .num ((jsParseInt dflt).getD 0)
        else dflt
  coerceEnvBool v

/-- `Environment.define` restricted to its pure core: given the process
environment (a map from variable name to its string value, `none` when
the variable is absent), the value the returned `parsed` object holds
for `key`.  Keys outside `this.defaults` are passed through untouched;
keys of `this.defaults` are defaulted and boolean-coerced per
`defineOption`. -/
def environmentDefine (env : String → Option String) (key : String) : Option JVal :=
  match environmentDefaults.find? (fun p => p.1 = key) with
  | some p => some (defineOption (env key) p.2)
  | none => (env key).map .str

/- ## Harbor.validateResult (src/Harbor/index.js lines 162-182) -/

/-- A publish result as `Harbor.validateResult` receives one:
`completed` and `exceptions` may each be absent (`undefined`). -/
structure PublishResult where
  completed : Option (List String)
  exceptions : Option (List String)
deriving DecidableEq, Repr

/-- JavaScript truthiness of `r.f && r.f.length`: the field is defined
and the list is non-empty. -/
def truthyList (o : Option (List String)) : Bool :=
  match o with
  | none => false
  | some l => !l.isEmpty

/-- JavaScript truthiness of `r.f && !r.f.length`: the field is defined
and the list is empty. -/
def definedEmpty (o : Option (List String)) : Bool :=
  match o with
  | none => false
  | some l => l.isEmpty

/-- What `validateResult` writes to the console, by payload. -/
inductive LogEvent where
  | errorExc (exc : List String)
  | successDone (completed : List String)
  | warnExc (exc : List String)
deriving DecidableEq, Repr

/-- The observable outcome of one `validateResult` call: the console
events it emitted, and whether it raised (`throw Error(...)`). -/
structure ValidateOutcome where
  logs : List LogEvent
  thrown : Bool
deriving DecidableEq, Repr

/-- `Harbor.validateResult` (src/Harbor/index.js): with a non-empty
`exceptions` list in a non-development environment it logs an error and
throws; otherwise it falls through to the logging section. -/
def validateResult (env : String) (r : PublishResult) : ValidateOutcome :=
  if truthyList r.exceptions ∧ env ≠ "development" then
    ⟨[.errorExc (r.exceptions.getD [])], true⟩
  else if truthyList r.completed then
    if definedEmpty r.exceptions then ⟨[.successDone (r.completed.getD [])], false⟩
    else ⟨[], false⟩
  else if truthyList r.exceptions then
    ⟨[.warnExc (r.exceptions.getD [])], false⟩
  else ⟨[], false⟩

/- ## BaseService (src/Harbor/services/BaseService.js) -/

/-- The shape of `options.acceptedEnvironments` as JavaScript can supply
it: a single string or an array of strings. -/
inductive AcceptedEnvCfg where
  | one (s : String)
  | many (l : List String)
deriving DecidableEq, Repr

/-- The service options object handed to the `BaseService` constructor;
`none` fields model `undefined`. -/
structure ServiceOptionsCfg where
  acceptedEnvironments : Option AcceptedEnvCfg
deriving DecidableEq, Repr

/-- JavaScript truthiness of an `acceptedEnvironments` value: an empty
string is falsy, every array (even an empty one) is truthy. -/
def truthyAcceptedCfg (c : AcceptedEnvCfg) : Bool :=
  match c with
  | .one s => s ≠ ""
  | .many _ => true

/-- `BaseService.defineAcceptedEnvironments`: `undefined` without
options or without a truthy `acceptedEnvironments`; otherwise the value
wrapped into an array when it is not one already. -/
def defineAcceptedEnvironments (options : Option ServiceOptionsCfg) : Option (List String) :=
  match options with
  | none => none
  | some cfg =>
      match cfg.acceptedEnvironments with
      | none => none
      | some c =>
          if truthyAcceptedCfg c then
            match c with
            | .one s => some [s]
            | .many l => some l
          else none

/-- The `acceptedEnvironments` member of `this.options` after
`BaseService.defineOptions`: the inner `Object.assign` overwrites the
property with the (possibly `undefined`) result of
`defineAcceptedEnvironments`, and the outer `Object.assign` copies that
over the `[]` default, so an `undefined` result survives. -/
def optionsAcceptedEnvironments (options : Option ServiceOptionsCfg) : Option (List String) :=
  defineAcceptedEnvironments options

/-- `BaseService.initIfAccepted`: the service runs unless a non-empty
`acceptedEnvironments` list excludes the current `THEME_ENVIRONMENT`. -/
def initIfAccepted (accepted : Option (List String)) (themeEnvironment : String) : Bool :=
  match accepted with
  | none => true
  | some l => if l.isEmpty then true else l.contains themeEnvironment

/-- The handler a `BaseService.subscribe` call registers: either the
bound real `init`, or the environment-gate stub closure. -/
inductive SubscribedHandler where
  | realInit
  | gateStub
deriving DecidableEq, Repr

/-- A subscription as `TaskManager.subscribe(name, hook, handler)`
receives it from `BaseService.subscribe`. -/
structure Subscription where
  name : String
  hooks : List String
  handler : SubscribedHandler
deriving DecidableEq, Repr

/-- `BaseService.subscribe`: the ternary `this.initIfAccepted() ? this.init.bind(this) : () => {...}`
chooses the registered handler once, from the environment current at
subscription time. -/
def subscribeService (name : String) (hook : List String)
    (accepted : Option (List String)) (envAtMount : String) : Subscription :=
  ⟨name, hook, if initIfAccepted accepted envAtMount then .realInit else .gateStub⟩

/-- What one invocation of a registered handler observably does: whether
the real `init` body ran, whether the skip notice was logged, and the
`exit` argument of the `this.resolve(exit)` call it made (`none` inside
the `some` is `resolve()` with `exit` left `undefined`; an outer `none`
means no signal). -/
structure HandlerRun where
  initInvoked : Bool
  skipLogged : Bool
  signal : Option (Option Bool)
deriving DecidableEq, Repr

/-- Invoking the handler stored in a subscription at publish time.  The
gate stub (`BaseService.subscribe` lines 95-105) logs the warning and
returns `this.resolve()`; the real branch runs the unit's own `init`,
whose behaviour `initRun` describes and may depend on the environment at
publish time.  The stub is a fixed closure: it does not read the
publish-time environment. -/
def invokeSubscription (s : Subscription) (initRun : String → HandlerRun)
    (envAtPublish : String) : HandlerRun :=
  match s.handler with
  | .realInit => initRun envAtPublish
  | .gateStub => ⟨false, true, some none⟩

/-- The bucket of a publish result a signalled unit lands in. -/
inductive ResultBucket where
  | completed
  | exceptions
deriving DecidableEq, Repr

/-- JavaScript truthiness of an optional boolean (`undefined` is
falsy). -/
def truthyOptBool (b : Option Bool) : Bool :=
  match b with
  | none => false
  | some v => v

/-- Modelled from the spec: `TaskManager.resolve(name, exit)` — the
publish engine itself (src/Harbor/services/TaskManager.js) is not among
the analysed sources — records the unit under `exceptions` when the
`exit` flag is truthy (`reject()` is `resolve(true)`) and under
`completed` otherwise (section 4.2 step 4 of the spec). -/
def taskManagerBucket (exit : Option Bool) : ResultBucket :=
  if truthyOptBool exit then .exceptions else .completed

/- ## BaseService.defineEntry (src/Harbor/services/BaseService.js lines 117-144) -/

/-- JavaScript `path.join(a, b)` as far as the embedding needs it: the
two segments joined with a separator. -/
def pathJoin (a b : String) : String :=
  a ++ "/" ++ b

/-- `BaseService.defineEntry` with `useDestination` falsy, as a function
of the entry configuration (`none` models a missing `config.entry`; the
`!this.config.entry instanceof Object` conjunct of the guard parses as
`(!this.config.entry) instanceof Object`, which is always `false`, so
only truthiness of `config.entry` is tested), the `THEME_SRC` root, the
glob collaborator and the file sizes reported by `statSync`.  Returns
the new value of `this.entry`; `none` means the field was left
`undefined`.  The `filter` callback returns `statSync(e).size > 0 ? e : null`,
so a path is kept exactly when its size is positive and the path string
itself is truthy (non-empty). -/
def defineEntry (cfgEntry : Option (List (String × String))) (themeSrc : String)
    (globSync : String → List String) (fileSize : String → Nat) :
    Option (List (List String)) :=
  match cfgEntry with
  | none => none
  | some entries =>
      if entries.isEmpty then none
      else
        some (((entries.map fun p =>
            (globSync (pathJoin themeSrc p.2)).filter fun e =>
              fileSize e > 0 && e ≠ "").filter fun l => !l.isEmpty))

/- ## Hook-list construction (BaseService constructor and Harbor.mount) -/

/-- A `hook` field of a unit's configuration, when present: a string or
an array of strings. -/
inductive JHook where
  | str (s : String)
  | arr (l : List String)
deriving DecidableEq, Repr

/-- JavaScript truthiness of an optional `hook` value: absent or an
empty string is falsy; arrays are always truthy. -/
def truthyHook (h : Option JHook) : Bool :=
  match h with
  | none => false
  | some (.str s) => s ≠ ""
  | some (.arr _) => true

/-- The strict-inequality test `hook !== name` of the source: a string
compares by value, an array is never identical to a string, and
`undefined` is never identical to a string name. -/
def hookNeqName (h : Option JHook) (name : String) : Bool :=
  match h with
  | none => true
  | some (.str s) => s ≠ name
  | some (.arr _) => true

/-- The hook list the `BaseService` constructor subscribes with:
`this.config.hook && this.config.hook !== this.name ? [this.name, this.config.hook] : [this.name]`.
Elements keep their JavaScript shape (a configured array ends up nested,
not spread, in this code path). -/
def baseServiceHookList (name : String) (cfgHook : Option JHook) : List JHook :=
  if truthyHook cfgHook && hookNeqName cfgHook name then
    [.str name] ++ (match cfgHook with
      | some h => [h]
      | none => [])
  else [.str name]

/-- The hook list `Harbor.mount` subscribes with
(src/Harbor/index.js lines 139-156): `h` is `hook` wrapped into an array
when it is not one, and the registered list is
`hook && hook !== name ? [name, ...h] : [...h]`.  Elements are
`Option String` so that a spread `undefined` hook is representable. -/
def mountHookList (name : String) (cfgHook : Option JHook) : List (Option String) :=
  let h : List (Option String) :=
    match cfgHook with
    | some (.arr l) => l.map some
    | some (.str s) => [some s]
    | none => [none]
  if truthyHook cfgHook && hookNeqName cfgHook name then some name :: h else h

/- ## JsOptimizer.init (src/Harbor/plugins/JsOptimizer.js) -/

/-- The outcome `fs.readFile` reports to its callback for one path. -/
inductive ReadResult where
  | error
  | ok (data : String)
deriving DecidableEq, Repr

/-- The result object of `uglify-js`'s `minify`: `code` may be absent,
`error` flags a minify failure. -/
structure MinifyResult where
  code : Option String
  error : Bool
deriving DecidableEq, Repr

/-- One file of `JsOptimizer.optimizeCwd`: the completion signals the
`fs.readFile` callback emits for this path, and whether its `done`
promise ever settles.
* A read error leaves `data` undefined, so `if (!data) return super.resolve()`
  signals success and `done` is never called;
* otherwise `this.write(path, result.error ? data.toString() : result.code)`
  is invoked: with a falsy path or blob, `write` calls `super.reject()`
  and returns it (so no promise settles and `done` is unreachable);
  with truthy arguments `fs.writeFile` always invokes its callback,
  the promise resolves, and `done` runs with no signal emitted. -/
def processEntryFile (fsRead : String → ReadResult) (minify : String → MinifyResult)
    (p : String) : List (Option Bool) × Bool :=
  match fsRead p with
  | .error => ([none], false)
  | .ok data =>
      let r := minify data
      let blob : Option String := if r.error then some data else r.code
      match blob with
      | none => ([some true], false)
      | some b =>
          if b = "" then ([some true], false)
          else if p = "" then ([some true], false)
          else ([], true)

/-- `JsOptimizer.init` as the sequence of completion signals one
invocation emits (each element is the `exit` argument of a
`resolve(exit)` call; `none` is `resolve()`, `some true` is `reject()`).
An absent or empty `this.entry` returns `super.resolve()` immediately.
Otherwise every file of every entry group is processed; the trailing
`super.resolve()` after the `Promise.all` runs only when every file's
promise settled. -/
def jsOptimizerInit (entry : Option (List (List String)))
    (fsRead : String → ReadResult) (minify : String → MinifyResult) :
    List (Option Bool) :=
  match entry with
  | none => [none]
  | some groups =>
      if groups.isEmpty then [none]
      else
        let results := groups.flatten.map (processEntryFile fsRead minify)
        (results.map Prod.fst).flatten ++
          (if results.all Prod.snd then [none] else [])

/- ## StyleguideHelper.init (src/Harbor/workers/StyleguideHelper.js lines 22-30) -/

/-- A JavaScript runtime error relevant to the embedding. -/
inductive JsError where
  | typeError
deriving DecidableEq, Repr

/-- `StyleguideHelper.init`: the body reads `this.entry.map(...)`
without a guard, so an undefined `this.entry` throws a `TypeError`
before any signal is sent.  With a defined entry list, every
`setupInitialStories` promise settles (its `fs.writeFile` callback
always invokes `callback()`, and the trailing `.then` always calls
`done`; the `.catch`/`super.reject()` branch is unreachable because the
queued executors swallow their own exceptions), after which the single
`super.resolve()` runs.  `storyWrites` abstracts the files
`setupInitialStories` writes for one entry group; the returned pair is
(writes performed, completion signals emitted). -/
def styleguideHelperInit (entry : Option (List (List String)))
    (storyWrites : List String → List String) :
    Except JsError (List String × List (Option Bool)) :=
  match entry with
  | none => .error .typeError
  | some groups => .ok ((groups.map storyWrites).flatten, [none])

/- ## Harbor.init (src/Harbor/index.js lines 64-134) -/

/-- The characters of a string before its first `::` occurrence. -/
def takeBeforeDoubleColon : List Char → List Char
  | [] => []
  | ':' :: ':' :: _ => []
  | c :: rest => c :: takeBeforeDoubleColon rest

/-- JavaScript `String(arg).split('::')[0]`: everything before the first
`::` (the whole string when there is none). -/
def hookBase (s : String) : String :=
  ⟨takeBeforeDoubleColon s.data⟩

/-- The hook list of one configured plugin as the plugin-selection
filter normalises it: `hook ? (Array.isArray(hook) ? hook : [String(hook)]) : []`. -/
def pluginHookList (h : Option JHook) : List String :=
  match h with
  | some (.arr l) => l
  | some (.str s) => if s = "" then [] else [s]
  | none => []

/-- The plugin-selection filter of `Harbor.init`: the CLI argument names
(in `Object.keys` order, paired with their truthiness) whose value is
truthy and whose base name is contained in at least one configured
plugin's hook list. -/
def selectPlugins (args : List (String × Bool)) (cfgHooks : List (Option JHook)) :
    List String :=
  (args.filter fun a =>
    a.2 && cfgHooks.any fun h => (pluginHookList h).contains (hookBase a.1)).map Prod.fst

/-- The worker task list of `Harbor.init`: `[task].filter(t => t)` (an
empty string is falsy), falling back to the worker hooks whose base name
appears among the custom CLI argument keys. -/
def computeTasks (task : Option String) (customArgsKeys : List String)
    (workerHooks : List String) : List String :=
  let t0 : List String :=
    match task with
    | some s => if s = "" then [] else [s]
    | none => []
  if t0.isEmpty then
    (workerHooks.filter fun h => customArgsKeys.contains (hookBase h)).map hookBase
  else t0

/-- JavaScript `Array.prototype.join(',')`: the elements concatenated
with comma separators (the character-list form keeps later reasoning
about the comma positions elementary). -/
def joinCommaChars : List String → List Char
  | [] => []
  | [s] => s.data
  | s :: rest => s.data ++ ',' :: joinCommaChars rest

/-- JavaScript `plugins.join(',')` as a string. -/
def joinComma (l : List String) : String :=
  ⟨joinCommaChars l⟩

/-- Split a character list at every comma. -/
def splitCommaChars : List Char → List (List Char)
  | [] => [[]]
  | c :: rest =>
      if c = ',' then [] :: splitCommaChars rest
      else
        match splitCommaChars rest with
        | [] => [[c]]
        | g :: gs => (c :: g) :: gs

/-- Modelled from the spec: `TaskManager.publish`
(src/Harbor/services/TaskManager.js, not among the analysed sources)
receives the requested hooks either as a list or — as `Harbor.init` does
for plugins — as one comma-joined string, which it splits back into the
individual hook names. -/
def splitHooks (s : String) : List String :=
  (splitCommaChars s.data).map fun cs => ⟨cs⟩

/-- The externally visible steps of one `Harbor.init` run, in order. -/
inductive RunEvent where
  | mountWorkers
  | publishWorkers (hooks : List String)
  | warnedNothing
  | mountPlugins
  | publishPlugins (arg : String)
  | aborted
deriving DecidableEq, Repr

/-- The plugin stage of `Harbor.init` (the `if (args)` block): mount and
publish the plugins only when the selection filter matched, then apply
`validateResult` to the plugin publish result. -/
def harborPluginStage (args : List (String × Bool)) (cfgHooks : List (Option JHook))
    (env : String) (pluginResult : PublishResult) : List RunEvent :=
  let plugins := selectPlugins args cfgHooks
  if plugins.isEmpty then []
  else
    [.mountPlugins, .publishPlugins (joinComma plugins)] ++
      (if (validateResult env pluginResult).thrown then [.aborted] else [])

/-- `Harbor.init` as the trace of run events it produces.  The publish
results are inputs (they come from the TaskManager, which is outside the
analysed sources).  A `validateResult` throw is caught by the
surrounding `try`/`catch`, which rethrows: the run aborts and nothing
later in the `try` block executes. -/
def harborInit (task : Option String) (customArgsKeys : List String)
    (workerHooks : List String) (args : List (String × Bool))
    (cfgHooks : List (Option JHook)) (env : String)
    (workerResult pluginResult : PublishResult) : List RunEvent :=
  let tasks := computeTasks task customArgsKeys workerHooks
  [.mountWorkers] ++
    (if tasks.isEmpty then
      [.warnedNothing] ++ harborPluginStage args cfgHooks env pluginResult
    else
      [.publishWorkers tasks] ++
        (if (validateResult env workerResult).thrown then [.aborted]
         else harborPluginStage args cfgHooks env pluginResult))

/- ## Legacy CLI driver (src/bin/Harbor.js lines 31-54) -/

/-- The console events the legacy `Harbor.init` emits, plus the moment a
task handler is entered (`await this[name](config)` begins the call
synchronously). -/
inductive BinEvent where
  | info (n : String)
  | dispatch (n : String)
  | success (n : String)
  | warning (n : String)
deriving DecidableEq, Repr

/-- The members of the legacy `Harbor` class for which
`typeof this[name] === 'function'` holds (its own methods plus the
auto-generated constructor; inherited `Object.prototype` members are
outside the modelled name space). -/
def binIsFunction (n : String) : Bool :=
  ["constructor", "init", "clean", "sync", "stylesheets", "javascripts",
    "serve"].contains n

/-- `task.split(',').map(t => t.trim())`, guarded by the truthiness of
`task`. -/
def binTasks (task : String) : List String :=
  if task = "" then []
  else (splitCommaChars task.data).map fun cs => ⟨jsTrimChars cs⟩

/-- The events emitted synchronously by the `tasks.forEach(async name => ...)`
loop: for each task in order, either the `Running task` log followed by
entry into the handler, or the warning for an unknown name.  Every
`await` inside a callback defers the rest of that callback past the
remaining loop iterations, so no `success` log can occur here. -/
def binSyncEvents (task : String) : List BinEvent :=
  ((binTasks task).map fun n =>
    if binIsFunction n then [.info n, .dispatch n] else [.warning n]).flatten

/-- The legacy `Harbor.init` under the cooperative scheduler: the
synchronous phase of every callback runs first (in task order), and the
deferred continuations (`Logger.success`) run afterwards, in whatever
order the awaited handlers settle (`completionOrder`). -/
def binInitConcurrent (task : String) (completionOrder : List String) : List BinEvent :=
  binSyncEvents task ++ completionOrder.map .success

/-- The behaviour the source comment `Run all defined tasks in a
Synchronous order` describes: each task runs to completion, success log
included, before the next is dispatched. -/
def binInitSequential (task : String) : List BinEvent :=
  ((binTasks task).map fun n =>
    if binIsFunction n then [.info n, .dispatch n, .success n] else [.warning n]).flatten

/- ## Shared helper lemmas -/

theorem coerceEnvBool_eq_false (s : String)
    (h : jsToLowerCase s = "false" ∨ jsToLowerCase s = "0") :
    coerceEnvBool (.str s) = .bool false := by
  simp only [coerceEnvBool, if_pos h]

theorem coerceEnvBool_eq_true (s : String)
    (h : jsToLowerCase s = "true" ∨ jsToLowerCase s = "1") :
    coerceEnvBool (.str s) = .bool true := by
  have h0 : ¬(jsToLowerCase s = "false" ∨ jsToLowerCase s = "0") := by
    rcases h with h | h <;> rw [h] <;> decide
  simp only [coerceEnvBool, if_neg h0, if_pos h]

theorem validateResult_eq_thrown (env : String) (r : PublishResult)
    (h1 : env ≠ "development") (h2 : truthyList r.exceptions = true) :
    validateResult env r = ⟨[.errorExc (r.exceptions.getD [])], true⟩ := by
  simp [validateResult, h1, h2]

theorem validateResult_dev_not_thrown (r : PublishResult) :
    (validateResult "development" r).thrown = false := by
  simp only [validateResult]
  split
  · next h => exact absurd rfl h.2
  · split
    · split <;> rfl
    · split <;> rfl

/-- Helper: for a key of `this.defaults`, `Environment.define` applies
the defaulting-and-coercion step of `defineOption` to it. -/
theorem environmentDefine_mem_defaults (env : String → Option String)
    (key : String) (d : JVal) (hmem : (key, d) ∈ environmentDefaults) :
    environmentDefine env key = some (defineOption (env key) d) := by
  have hkeys : environmentDefaults.find? (fun p => p.1 = key) = some (key, d) := by
    simp only [environmentDefaults, List.mem_cons, List.not_mem_nil, or_false,
      Prod.mk.injEq] at hmem
    rcases hmem with ⟨h1, h2⟩ | ⟨h1, h2⟩ | ⟨h1, h2⟩ | ⟨h1, h2⟩ | ⟨h1, h2⟩ | ⟨h1, h2⟩ |
      ⟨h1, h2⟩ <;> subst h1 <;> subst h2 <;> rfl
  simp only [environmentDefine, hkeys]

/-- C9: when `THEME_ENVIRONMENT` is absent from the process environment,
`Environment.define` yields the string `'production'` — hence the
strict, non-development `validateResult` policy applies by default — and
every defaulted option whose supplied value is the string
`'false'`/`'0'` (resp. `'true'`/`'1'`, case-insensitively) is coerced to
the boolean `false` (resp. `true`). -/
theorem environmentDefine_defaults_spec (env : String → Option String) :
    (env "THEME_ENVIRONMENT" = none →
      environmentDefine env "THEME_ENVIRONMENT" = some (.str "production") ∧
      ∀ exc : List String, exc ≠ [] →
        (validateResult "production" ⟨none, some exc⟩).thrown = true) ∧
    (∀ key d, (key, d) ∈ environmentDefaults → ∀ s, env key = some s →
      ((jsToLowerCase s = "false" ∨ jsToLowerCase s = "0") →
        environmentDefine env key = some (.bool false)) ∧
      ((jsToLowerCase s = "true" ∨ jsToLowerCase s = "1") →
        environmentDefine env key = some (.bool true))) := by
  constructor
  · intro h
    constructor
    · have := environmentDefine_mem_defaults env "THEME_ENVIRONMENT" (.str "production")
        (by decide)
      rw [this, h]
      decide
    · intro exc hexc
      have ht : truthyList (some exc) = true := by
        cases exc with
        | nil => exact absurd rfl hexc
        | cons a t => rfl
      rw [validateResult_eq_thrown "production" ⟨none, some exc⟩ (by decide) ht]
  · intro key d hmem s hs
    have hd := environmentDefine_mem_defaults env key d hmem
    rw [hd, hs]
    constructor
    · intro hb
      show some (coerceEnvBool (.str s)) = some (.bool false)
      rw [coerceEnvBool_eq_false s hb]
    · intro hb
      show some (coerceEnvBool (.str s)) = some (.bool true)
      rw [coerceEnvBool_eq_true s hb]

/-- Witness for C9 at a concrete environment: `THEME_ENVIRONMENT` absent
defaults to `'production'`, and `THEME_DEBUG='False'` is coerced to the
boolean `false`. -/
theorem environmentDefine_defaults_spec_witness :
    environmentDefine (fun k => if k = "THEME_DEBUG" then some "False" else none)
        "THEME_ENVIRONMENT" = some (.str "production") ∧
    environmentDefine (fun k => if k = "THEME_DEBUG" then some "False" else none)
        "THEME_DEBUG" = some (.bool false) ∧
    (validateResult "production" ⟨none, some ["sass"]⟩).thrown = true := by
  have h := environmentDefine_defaults_spec
    (fun k => if k = "THEME_DEBUG" then some "False" else none)
  refine ⟨(h.1 (by decide)).1, ?_, (h.1 (by decide)).2 ["sass"] (by decide)⟩
  exact (h.2 "THEME_DEBUG" (.bool false) (by decide) "False" (by decide)).1 (by decide)

/-- C3 counterexample: in a development run with a non-empty `completed`
list and a non-empty `exceptions` list, `validateResult` returns
normally but logs nothing at all — the exceptions are not logged. -/
theorem validateResult_dev_silent_counterexample :
    validateResult "development" ⟨some ["postcss"], some ["sass"]⟩ =
      ⟨[], false⟩ := by
  decide

/-- C3 (amended): with non-empty exceptions outside development,
`validateResult` logs an error and raises; in development it returns
normally without raising, and logs the exceptions (as a warning) only
when nothing completed. -/
theorem validateResult_policy (env : String) (r : PublishResult) :
    (env ≠ "development" → truthyList r.exceptions = true →
      validateResult env r = ⟨[.errorExc (r.exceptions.getD [])], true⟩) ∧
    (validateResult "development" r).thrown = false ∧
    (truthyList r.exceptions = true → truthyList r.completed = false →
      (validateResult "development" r).logs = [.warnExc (r.exceptions.getD [])]) := by
  refine ⟨fun h1 h2 => validateResult_eq_thrown env r h1 h2,
    validateResult_dev_not_thrown r, fun h2 h3 => ?_⟩
  simp [validateResult, h2, h3]

/-- Witness for C3 at the spec's own scenario (`sass` rejected): strict
abort in production, lenient warning in development when nothing
completed. -/
theorem validateResult_policy_witness :
    validateResult "production" ⟨some [], some ["sass"]⟩ =
      ⟨[.errorExc ["sass"]], true⟩ ∧
    (validateResult "development" ⟨some [], some ["sass"]⟩).thrown = false ∧
    (validateResult "development" ⟨some [], some ["sass"]⟩).logs =
      [.warnExc ["sass"]] := by
  have hp := validateResult_policy "production" ⟨some [], some ["sass"]⟩
  have hd := validateResult_policy "development" ⟨some [], some ["sass"]⟩
  exact ⟨hp.1 (by decide) (by decide), hd.2.1, hd.2.2 (by decide) (by decide)⟩

/-- C2: a unit whose non-empty `acceptedEnvironments` list excludes the
mount-time environment gets the gate stub registered by
`BaseService.subscribe`; invoking it at any later publish — whatever the
environment is by then — logs the skip notice, never runs the real
`init`, and signals `resolve()` with no failure flag, which the Task
Manager records under `completed`, never `exceptions`. -/
theorem environmentGate_stub (name : String) (hooks : List String)
    (accepted : List String) (envAtMount : String) (initRun : String → HandlerRun)
    (hne : accepted ≠ []) (hnotin : envAtMount ∉ accepted) :
    (subscribeService name hooks (some accepted) envAtMount).handler = .gateStub ∧
    ∀ envAtPublish : String,
      invokeSubscription (subscribeService name hooks (some accepted) envAtMount)
          initRun envAtPublish = ⟨false, true, some none⟩ ∧
      taskManagerBucket none = .completed := by
  have hemp : accepted.isEmpty = false := by
    cases accepted with
    | nil => exact absurd rfl hne
    | cons a t => rfl
  have hcont : accepted.contains envAtMount = false := by
    simpa using hnotin
  have hgate : initIfAccepted (some accepted) envAtMount = false := by
    simp only [initIfAccepted, hemp, Bool.false_eq_true, if_false]
    exact hcont
  refine ⟨by simp [subscribeService, hgate], fun envAtPublish => ⟨?_, rfl⟩⟩
  simp [subscribeService, hgate, invokeSubscription]

/-- Witness for C2: `JsOptimizer` is gated to `production` while the
mount-time environment is `development`; even a later publish in
`production` still runs the stub. -/
theorem environmentGate_stub_witness :
    (subscribeService "JsOptimizer" ["JsOptimizer"] (some ["production"])
        "development").handler = .gateStub ∧
    invokeSubscription (subscribeService "JsOptimizer" ["JsOptimizer"]
        (some ["production"]) "development")
        (fun _ => ⟨true, false, some (some true)⟩) "production" =
      ⟨false, true, some none⟩ ∧
    taskManagerBucket none = .completed := by
  have h := environmentGate_stub "JsOptimizer" ["JsOptimizer"] ["production"]
    "development" (fun _ => ⟨true, false, some (some true)⟩) (by decide) (by decide)
  exact ⟨h.1, (h.2 "production").1, (h.2 "production").2⟩

/-- C10: `BaseService.defineEntry` leaves `this.entry` undefined without
an entry configuration, and otherwise stores only lists that survived
the size filter: every stored group is non-empty and every stored path
has a positive file size (so groups whose matches were all empty files
are dropped). -/
theorem defineEntry_wellformed (cfgEntry : Option (List (String × String)))
    (themeSrc : String) (globSync : String → List String) (fileSize : String → Nat) :
    (cfgEntry = none → defineEntry cfgEntry themeSrc globSync fileSize = none) ∧
    (∀ res, defineEntry cfgEntry themeSrc globSync fileSize = some res →
      ∀ g ∈ res, g ≠ [] ∧ ∀ e ∈ g, fileSize e > 0) := by
  constructor
  · intro h
    rw [h]
    rfl
  · intro res hres g hg
    cases cfgEntry with
    | none => exact absurd hres (by simp [defineEntry])
    | some entries =>
        by_cases hemp : entries.isEmpty
        · exact absurd hres (by simp [defineEntry, hemp])
        · simp only [defineEntry, hemp, Bool.false_eq_true, if_false,
            Option.some.injEq] at hres
          subst hres
          rw [List.mem_filter] at hg
          obtain ⟨hmem, hne⟩ := hg
          constructor
          · intro hnil
            rw [hnil] at hne
            exact absurd hne (by decide)
          · intro e he
            obtain ⟨p, hp, hpe⟩ := List.mem_map.mp hmem
            rw [← hpe] at he
            rw [List.mem_filter] at he
            have := he.2
            simp only [Bool.and_eq_true, decide_eq_true_eq] at this
            exact this.1

/-- Witness for C10: one pattern matching a non-empty file, an empty
file and an empty path keeps exactly the non-empty file. -/
theorem defineEntry_wellformed_witness :
    defineEntry (some [("main", "x")]) "src"
        (fun _ => ["a.css", "", "z.css"]) (fun e => if e = "a.css" then 3 else 0) =
      some [["a.css"]] ∧
    ["a.css"] ≠ [] ∧
    ∀ e ∈ ["a.css"], (if e = "a.css" then 3 else 0) > 0 := by
  refine ⟨by decide, ?_⟩
  exact (defineEntry_wellformed (some [("main", "x")]) "src"
    (fun _ => ["a.css", "", "z.css"]) (fun e => if e = "a.css" then 3 else 0)).2
    [["a.css"]] (by decide) ["a.css"] (by decide)

/-- C5 counterexample: `Harbor.mount` handed a configuration without a
`hook` field subscribes the unit under the single-element list
`[undefined]` — the unit's own name is not among its hooks. -/
theorem mountHookList_missing_name_counterexample :
    mountHookList "Cleaner" none = [none] ∧
    (mountHookList "Cleaner" none).contains (some "Cleaner") = false := by
  decide

/-- C5 (amended): the `BaseService` constructor always registers a hook
list containing the unit's own name; `Harbor.mount` does so whenever the
configured `hook` value is truthy (a non-empty string or an array), but
a missing hook yields `[undefined]` and an empty-string hook yields
`['']`, neither of which contains the name. -/
theorem hookLists_contain_name (name : String) (cfgHook : Option JHook) :
    (baseServiceHookList name cfgHook).contains (.str name) = true ∧
    (truthyHook cfgHook = true →
      (mountHookList name cfgHook).contains (some name) = true) := by
  constructor
  · unfold baseServiceHookList
    split
    · simp
    · simp
  · intro htruthy
    unfold mountHookList
    cases cfgHook with
    | none => exact absurd htruthy (by decide)
    | some h =>
        cases h with
        | str s =>
            by_cases hsn : s = name
            · subst hsn
              simp [hookNeqName]
            · have : hookNeqName (some (.str s)) name = true := by
                simp [hookNeqName, hsn]
              simp [htruthy, this]
        | arr l => simp [htruthy, hookNeqName]

/-- Witness for C5: the `Watcher` unit with configured hook `watch` is
registered under `[Watcher, watch]` by `Harbor.mount`, and under
`[Watcher, watch]` by the `BaseService` constructor. -/
theorem hookLists_contain_name_witness :
    (baseServiceHookList "Watcher" (some (.str "watch"))).contains
        (.str "Watcher") = true ∧
    (mountHookList "Watcher" (some (.str "watch"))).contains
        (some "Watcher") = true := by
  have h := hookLists_contain_name "Watcher" (some (.str "watch"))
  exact ⟨h.1, h.2 (by decide)⟩

/-- C7 counterexample: `StyleguideHelper.init` with an undefined
`this.entry` throws a `TypeError` (`this.entry.map` on `undefined`)
instead of signalling success. -/
theorem styleguideHelperInit_undefined_entry_counterexample :
    styleguideHelperInit none (fun _ => []) = .error .typeError := by
  rfl

/-- C7 (amended): a unit whose resolved entry list is empty is a no-op
that still signals exactly one `resolve()`; `JsOptimizer` also treats a
never-defined entry that way, but `StyleguideHelper` throws a
`TypeError` when its entry was never defined. -/
theorem emptyEntry_noop_resolves (fsRead : String → ReadResult)
    (minify : String → MinifyResult) (storyWrites : List String → List String) :
    jsOptimizerInit none fsRead minify = [none] ∧
    jsOptimizerInit (some []) fsRead minify = [none] ∧
    styleguideHelperInit (some []) storyWrites = .ok ([], [none]) := by
  exact ⟨rfl, rfl, rfl⟩

/-- Witness for C7 at concrete collaborators. -/
theorem emptyEntry_noop_resolves_witness :
    jsOptimizerInit none (fun _ => .error) (fun s => ⟨some s, false⟩) = [none] ∧
    jsOptimizerInit (some []) (fun _ => .error) (fun s => ⟨some s, false⟩) = [none] ∧
    styleguideHelperInit (some []) (fun g => g) = .ok ([], [none]) := by
  exact emptyEntry_noop_resolves (fun _ => .error) (fun s => ⟨some s, false⟩)
    (fun g => g)

/-- C1: the exactly-once-signal contract is broken by
`JsOptimizer.init`: with one entry group of two paths whose reads both
fail, the `fs.readFile` callbacks each execute
`if (!data) return super.resolve()`, so a single `init` invocation
signals completion twice (and the trailing `super.resolve()` never runs
because neither per-file promise settles). -/
theorem jsOptimizerInit_double_signal :
    jsOptimizerInit (some [["a", "b"]]) (fun _ => .error)
        (fun s => ⟨some s, false⟩) = [none, none] ∧
    (jsOptimizerInit (some [["a", "b"]]) (fun _ => .error)
        (fun s => ⟨some s, false⟩)).length ≠ 1 := by
  decide

/- ## Lemmas about comma joining and splitting -/

theorem stringMk_data (s : String) : (⟨s.data⟩ : String) = s := rfl

theorem splitCommaChars_cons (c : Char) (rest : List Char) :
    splitCommaChars (c :: rest) =
      if c = ',' then [] :: splitCommaChars rest
      else
        match splitCommaChars rest with
        | [] => [[c]]
        | g :: gs => (c :: g) :: gs := rfl

theorem splitCommaChars_no_comma (cs : List Char) (h : ',' ∉ cs) :
    splitCommaChars cs = [cs] := by
  induction cs with
  | nil => rfl
  | cons c rest ih =>
      have hc : ¬(c = ',') := fun he => h (he ▸ List.mem_cons_self c rest)
      have hr : ',' ∉ rest := fun hm => h (List.mem_cons_of_mem c hm)
      rw [splitCommaChars_cons, if_neg hc, ih hr]

theorem splitCommaChars_append (cs rest : List Char) (h : ',' ∉ cs) :
    splitCommaChars (cs ++ ',' :: rest) = cs :: splitCommaChars rest := by
  induction cs with
  | nil =>
      show splitCommaChars (',' :: rest) = [] :: splitCommaChars rest
      rw [splitCommaChars_cons, if_pos rfl]
  | cons c cs' ih =>
      have hc : ¬(c = ',') := fun he => h (he ▸ List.mem_cons_self c cs')
      have hcs : ',' ∉ cs' := fun hm => h (List.mem_cons_of_mem c hm)
      show splitCommaChars (c :: (cs' ++ ',' :: rest)) = (c :: cs') :: splitCommaChars rest
      rw [splitCommaChars_cons, if_neg hc, ih hcs]

theorem splitHooks_joinComma (l : List String) (hne : l ≠ [])
    (hcomma : ∀ p ∈ l, ',' ∉ p.data) : splitHooks (joinComma l) = l := by
  induction l with
  | nil => exact absurd rfl hne
  | cons a rest ih =>
      cases rest with
      | nil =>
          have ha : ',' ∉ a.data := hcomma a (by simp)
          show (splitCommaChars a.data).map (fun cs => (⟨cs⟩ : String)) = [a]
          rw [splitCommaChars_no_comma a.data ha]
          simp only [List.map_cons, List.map_nil]
      | cons b rest' =>
          have ha : ',' ∉ a.data := hcomma a (by simp)
          have hrest : ∀ p ∈ b :: rest', ',' ∉ p.data :=
            fun p hp => hcomma p (List.mem_cons_of_mem a hp)
          have ihr : splitHooks (joinComma (b :: rest')) = b :: rest' :=
            ih (by simp) hrest
          show (splitCommaChars (a.data ++ ',' :: joinCommaChars (b :: rest'))).map
              (fun cs => (⟨cs⟩ : String)) = a :: b :: rest'
          rw [splitCommaChars_append _ _ ha]
          simp only [List.map_cons]
          rw [stringMk_data]
          exact congrArg (List.cons a) ihr

/-- Detects a plugin publish event in a run trace. -/
def isPublishPlugins : RunEvent → Bool
  | .publishPlugins _ => true
  | _ => false

/-- C4: when the workers publish cycle comes back with a non-empty
exceptions set in a non-development environment, `Harbor.init` aborts
right after validating it: the full trace is mount-workers,
publish-workers, abort — the plugins are never mounted and never
published in that run. -/
theorem workerFailure_aborts_before_plugins (task : Option String)
    (customArgsKeys workerHooks : List String) (args : List (String × Bool))
    (cfgHooks : List (Option JHook)) (env : String) (wr pr : PublishResult)
    (henv : env ≠ "development") (hexc : truthyList wr.exceptions = true)
    (htasks : computeTasks task customArgsKeys workerHooks ≠ []) :
    harborInit task customArgsKeys workerHooks args cfgHooks env wr pr =
      [.mountWorkers,
        .publishWorkers (computeTasks task customArgsKeys workerHooks),
        .aborted] ∧
    RunEvent.mountPlugins ∉
      harborInit task customArgsKeys workerHooks args cfgHooks env wr pr ∧
    ∀ s : String, RunEvent.publishPlugins s ∉
      harborInit task customArgsKeys workerHooks args cfgHooks env wr pr := by
  have hthrown : (validateResult env wr).thrown = true := by
    rw [validateResult_eq_thrown env wr henv hexc]
  have hte : (computeTasks task customArgsKeys workerHooks).isEmpty = false := by
    cases h : computeTasks task customArgsKeys workerHooks with
    | nil => exact absurd h htasks
    | cons a t => rfl
  have htrace : harborInit task customArgsKeys workerHooks args cfgHooks env wr pr =
      [.mountWorkers,
        .publishWorkers (computeTasks task customArgsKeys workerHooks),
        .aborted] := by
    simp only [harborInit, hte, Bool.false_eq_true, if_false, hthrown, if_true]
    rfl
  refine ⟨htrace, ?_, ?_⟩
  · rw [htrace]
    simp
  · intro s
    rw [htrace]
    simp

/-- Witness for C4 at the spec's scenario: `sass` rejected in
production, with a truthy `watch` flag that would otherwise select the
`Watcher` plugin. -/
theorem workerFailure_aborts_before_plugins_witness :
    harborInit (some "sass") [] [] [("watch", true)] [some (.str "watch")]
        "production" ⟨some ["postcss"], some ["sass"]⟩ ⟨none, none⟩ =
      [.mountWorkers, .publishWorkers ["sass"], .aborted] ∧
    RunEvent.mountPlugins ∉
      harborInit (some "sass") [] [] [("watch", true)] [some (.str "watch")]
        "production" ⟨some ["postcss"], some ["sass"]⟩ ⟨none, none⟩ := by
  have h := workerFailure_aborts_before_plugins (some "sass") [] []
    [("watch", true)] [some (.str "watch")] "production"
    ⟨some ["postcss"], some ["sass"]⟩ ⟨none, none⟩
    (by decide) (by decide) (by decide)
  exact ⟨h.1, h.2.1⟩

/-- C6 counterexample: the truthy `watch` flag matches the `Watcher`
plugin's hook, yet no plugins publish is issued, because the workers
cycle failed first in a non-development environment and the run aborted
— the stated "if and only if" does not hold unconditionally. -/
theorem pluginPublish_iff_counterexample :
    selectPlugins [("watch", true)] [some (.str "watch")] = ["watch"] ∧
    harborInit (some "sass") [] [] [("watch", true)] [some (.str "watch")]
        "production" ⟨some ["postcss"], some ["sass"]⟩ ⟨none, none⟩ =
      [.mountWorkers, .publishWorkers ["sass"], .aborted] ∧
    (harborInit (some "sass") [] [] [("watch", true)] [some (.str "watch")]
        "production" ⟨some ["postcss"], some ["sass"]⟩ ⟨none, none⟩).any
      isPublishPlugins = false := by
  decide

/-- C6 (amended): provided the run reaches the plugin stage (no worker
tasks were published, or the workers `validateResult` did not raise),
the plugins publish cycle is issued exactly when at least one truthy CLI
flag has a base name contained in some configured plugin's hook list;
when issued, the argument passed to publish is the comma-join of those
flag names, which the Task Manager splits back into exactly those
names. -/
theorem pluginPublish_iff (task : Option String)
    (customArgsKeys workerHooks : List String) (args : List (String × Bool))
    (cfgHooks : List (Option JHook)) (env : String) (wr pr : PublishResult)
    (hreach : computeTasks task customArgsKeys workerHooks = [] ∨
      (validateResult env wr).thrown = false)
    (hcomma : ∀ p ∈ selectPlugins args cfgHooks, ',' ∉ p.data) :
    ((harborInit task customArgsKeys workerHooks args cfgHooks env wr pr).any
        isPublishPlugins = true ↔ selectPlugins args cfgHooks ≠ []) ∧
    (selectPlugins args cfgHooks ≠ [] →
      RunEvent.publishPlugins (joinComma (selectPlugins args cfgHooks)) ∈
        harborInit task customArgsKeys workerHooks args cfgHooks env wr pr ∧
      splitHooks (joinComma (selectPlugins args cfgHooks)) =
        selectPlugins args cfgHooks) := by
  have hstage : ∀ l₀ : List RunEvent, l₀.any isPublishPlugins = false →
      ((l₀ ++ harborPluginStage args cfgHooks env pr).any isPublishPlugins = true ↔
        selectPlugins args cfgHooks ≠ []) ∧
      (selectPlugins args cfgHooks ≠ [] →
        RunEvent.publishPlugins (joinComma (selectPlugins args cfgHooks)) ∈
          l₀ ++ harborPluginStage args cfgHooks env pr) := by
    intro l₀ hl₀
    by_cases hsel : (selectPlugins args cfgHooks).isEmpty
    · have hnil : selectPlugins args cfgHooks = [] := by
        cases h : selectPlugins args cfgHooks with
        | nil => rfl
        | cons a t => rw [h, List.isEmpty_cons] at hsel; exact absurd hsel (by decide)
      constructor
      · rw [List.any_append, hl₀]
        simp [harborPluginStage, hsel, hnil]
      · intro hne
        exact absurd hnil hne
    · have hne' : (selectPlugins args cfgHooks).isEmpty = false := by
        cases h : (selectPlugins args cfgHooks).isEmpty with
        | true => exact absurd h hsel
        | false => rfl
      have hstage2 : harborPluginStage args cfgHooks env pr =
          [.mountPlugins, .publishPlugins (joinComma (selectPlugins args cfgHooks))] ++
            (if (validateResult env pr).thrown then [.aborted] else []) := by
        simp only [harborPluginStage, hne', Bool.false_eq_true, if_false]
      constructor
      · rw [List.any_append, hl₀, hstage2]
        constructor
        · intro _
          intro hnil
          rw [hnil] at hne'
          exact absurd hne' (by decide)
        · intro _
          simp [isPublishPlugins]
      · intro _
        rw [hstage2]
        simp
  have hpre : ∀ pre : List RunEvent,
      harborInit task customArgsKeys workerHooks args cfgHooks env wr pr =
        pre ++ harborPluginStage args cfgHooks env pr →
      pre.any isPublishPlugins = false →
      ((harborInit task customArgsKeys workerHooks args cfgHooks env wr pr).any
          isPublishPlugins = true ↔ selectPlugins args cfgHooks ≠ []) ∧
      (selectPlugins args cfgHooks ≠ [] →
        RunEvent.publishPlugins (joinComma (selectPlugins args cfgHooks)) ∈
          harborInit task customArgsKeys workerHooks args cfgHooks env wr pr ∧
        splitHooks (joinComma (selectPlugins args cfgHooks)) =
          selectPlugins args cfgHooks) := by
    intro pre heq hany
    have h := hstage pre hany
    rw [heq]
    exact ⟨h.1, fun hne => ⟨h.2 hne, splitHooks_joinComma _ hne hcomma⟩⟩
  by_cases ht : (computeTasks task customArgsKeys workerHooks).isEmpty
  · refine hpre [.mountWorkers, .warnedNothing] ?_ (by decide)
    simp only [harborInit, ht, if_true]
    rfl
  · have ht' : (computeTasks task customArgsKeys workerHooks).isEmpty = false := by
      cases h : (computeTasks task customArgsKeys workerHooks).isEmpty with
      | true => exact absurd h ht
      | false => rfl
    have hthrow : (validateResult env wr).thrown = false := by
      rcases hreach with h | h
      · rw [h] at ht'
        exact absurd ht' (by decide)
      · exact h
    refine hpre [.mountWorkers,
      .publishWorkers (computeTasks task customArgsKeys workerHooks)] ?_ (by rfl)
    simp only [harborInit, ht', Bool.false_eq_true, if_false, hthrow]
    rfl

/-- Witness for C6: a development run with no worker tasks and the
truthy `watch` flag publishes the plugins with exactly `watch`. -/
theorem pluginPublish_iff_witness :
    ((harborInit none [] [] [("watch", true)] [some (.str "watch")]
        "development" ⟨none, none⟩ ⟨some [], none⟩).any isPublishPlugins = true ↔
      selectPlugins [("watch", true)] [some (.str "watch")] ≠ []) ∧
    RunEvent.publishPlugins (joinComma ["watch"]) ∈
      harborInit none [] [] [("watch", true)] [some (.str "watch")]
        "development" ⟨none, none⟩ ⟨some [], none⟩ ∧
    splitHooks (joinComma ["watch"]) = ["watch"] := by
  have h := pluginPublish_iff none [] [] [("watch", true)] [some (.str "watch")]
    "development" ⟨none, none⟩ ⟨some [], none⟩ (Or.inl (by decide)) (by decide)
  have hsel : selectPlugins [("watch", true)] [some (.str "watch")] = ["watch"] := by
    decide
  refine ⟨h.1, ?_, ?_⟩
  · have := (h.2 (by rw [hsel]; decide)).1
    rwa [hsel] at this
  · have := (h.2 (by rw [hsel]; decide)).2
    rwa [hsel] at this

/- ## Lemmas about the legacy driver's event phases -/

theorem success_not_mem_binSyncEvents (task n : String) :
    BinEvent.success n ∉ binSyncEvents task := by
  intro hmem
  simp only [binSyncEvents, List.mem_flatten, List.mem_map] at hmem
  obtain ⟨l, ⟨m, hm, rfl⟩, hel⟩ := hmem
  by_cases hf : binIsFunction m = true
  · simp [hf] at hel
  · simp [hf] at hel

theorem dispatch_mem_binSyncEvents (task a : String) (ha : a ∈ binTasks task)
    (hfa : binIsFunction a = true) : BinEvent.dispatch a ∈ binSyncEvents task := by
  simp only [binSyncEvents, List.mem_flatten, List.mem_map]
  exact ⟨[.info a, .dispatch a], ⟨a, ha, by rw [if_pos hfa]⟩, by simp⟩

/-- C8: in the legacy CLI driver, for every recognised task of a
comma-separated request, the handler is entered (`dispatch`) before the
completion (`success`) of any task — in particular before the completion
of the previous task — whatever order the awaited handlers settle in;
and on a concrete two-task request the produced trace differs from the
sequential one the source comment describes. -/
theorem binInit_concurrent_not_sequential (task : String) (compl : List String)
    (a : String) (ha : a ∈ binTasks task) (hfa : binIsFunction a = true) :
    (∀ b : String,
      (binInitConcurrent task compl).indexOf (BinEvent.dispatch a) <
        (binInitConcurrent task compl).indexOf (BinEvent.success b)) ∧
    binInitConcurrent "clean, sync" ["clean", "sync"] ≠
      binInitSequential "clean, sync" := by
  constructor
  · intro b
    have hd := dispatch_mem_binSyncEvents task a ha hfa
    have hs := success_not_mem_binSyncEvents task b
    unfold binInitConcurrent
    rw [List.indexOf_append_of_mem hd, List.indexOf_append_of_not_mem hs]
    calc (binSyncEvents task).indexOf (BinEvent.dispatch a)
        < (binSyncEvents task).length := List.indexOf_lt_length.mpr hd
      _ ≤ (binSyncEvents task).length +
            (compl.map BinEvent.success).indexOf (BinEvent.success b) :=
          Nat.le_add_right _ _
  · decide

/-- Witness for C8: with the request `clean,sync`, the second task is
dispatched strictly before the first task's completion is logged. -/
theorem binInit_concurrent_not_sequential_witness :
    (binInitConcurrent "clean,sync" ["clean", "sync"]).indexOf
        (BinEvent.dispatch "sync") <
      (binInitConcurrent "clean,sync" ["clean", "sync"]).indexOf
        (BinEvent.success "clean") := by
  exact (binInit_concurrent_not_sequential "clean,sync" ["clean", "sync"] "sync"
    (by decide) (by decide)).1 "clean"
